import Mathlib

/-!
Verification of the DAI Assistant core: the dependency-graph task executor
(src/dependency_graph/executor.py) and the error-handling / retry subsystem
(src/error_handling/handler.py), shallowly embedded in Lean 4.

Python dictionaries are modelled as association lists in insertion order,
sets of task ids as finite sets of strings, and asynchronous operations as
pure functions (within one scheduling batch no task depends on a sibling,
so the interleaving of awaits cannot be observed through the shared
result store; sequential execution of a batch is observationally faithful).
-/

/-- Keys of an association list modelling a Python dict (insertion order). -/
def dictKeys {β : Type} (l : List (String × β)) : List String :=
  l.map Prod.fst

/-- Lookup in an association list: the value of the first entry with the key,
    modelling Python dict access `d[k]` (`none` models a KeyError). -/
def dictLookup {β : Type} (l : List (String × β)) (k : String) : Option β :=
  match l with
  | [] => none
  | p :: rest => if p.1 = k then some p.2 else dictLookup rest k

/-- Python dict assignment `d[k] = v`: replaces the value in place if the key
    is present (keeping its position), otherwise appends a new entry. -/
def dictInsert {β : Type} (l : List (String × β)) (k : String) (v : β) : List (String × β) :=
  if l.any (fun p => decide (p.1 = k)) then
    l.map (fun p => if p.1 = k then (k, v) else p)
  else
    l ++ [(k, v)]

/-! ## Error taxonomy (src/error_handling/handler.py, exception classes) -/

/-- Severity levels for errors, mirroring the `ErrorSeverity` enum. -/
inductive ErrorSeverity where
  | info
  | warning
  | error
  | critical
  deriving DecidableEq, Repr

/-- The closed exception taxonomy of handler.py. `exc` models a plain Python
    `Exception` that is not a `DAIError`. -/
inductive ErrKind where
  | exc
  | dai
  | llm
  | tokenLimit
  | llmTimeout
  | invalidOutput
  | agentExecution
  | userInterrupt
  | configuration
  | dependency
  deriving DecidableEq, Repr

/-- The chain of superclasses of each exception class, the class itself
    included, mirroring the class hierarchy declared in handler.py
    (DAIError derives Exception; LLMError derives DAIError;
    TokenLimitError and LLMTimeoutError derive LLMError; the remaining
    DAI errors derive DAIError directly). -/
def ErrKind.ancestors : ErrKind → List ErrKind
  | .exc => [.exc]
  | .dai => [.dai, .exc]
  | .llm => [.llm, .dai, .exc]
  | .tokenLimit => [.tokenLimit, .llm, .dai, .exc]
  | .llmTimeout => [.llmTimeout, .llm, .dai, .exc]
  | .invalidOutput => [.invalidOutput, .dai, .exc]
  | .agentExecution => [.agentExecution, .dai, .exc]
  | .userInterrupt => [.userInterrupt, .dai, .exc]
  | .configuration => [.configuration, .dai, .exc]
  | .dependency => [.dependency, .dai, .exc]

/-- Python `isinstance(e, C)` on the taxonomy: the dynamic kind `k` is `C`
    itself or a subclass of `C`. -/
def isinstance (k target : ErrKind) : Bool :=
  k.ancestors.contains target

/-- An error value: the exception object carrying its dynamic class,
    message, and severity (fields set by `DAIError.__init__`). -/
structure ErrVal where
  kind : ErrKind
  message : String
  severity : ErrorSeverity
  deriving DecidableEq, Repr

/-- Observable outcome of an error-handler invocation: which handler ran and
    what it recorded. The default handlers only log (and `_handle_user_interrupt`
    exits the process); `custom` models a caller-registered handler. -/
inductive HandleRes where
  | tokenLimitLogged (message : String)
  | timeoutLogged (message : String)
  | invalidOutputLogged (message : String)
  | systemExit (code : Nat)
  | genericLogged (message : String)
  | custom (tag : String)
  deriving DecidableEq, Repr

/-- Default handler `_handle_token_limit`: logs the message. -/
def handle_token_limit (e : ErrVal) : HandleRes := .tokenLimitLogged e.message

/-- Default handler `_handle_timeout`: logs the message. -/
def handle_timeout (e : ErrVal) : HandleRes := .timeoutLogged e.message

/-- Default handler `_handle_invalid_output`: logs the message. -/
def handle_invalid_output (e : ErrVal) : HandleRes := .invalidOutputLogged e.message

/-- Default handler `_handle_user_interrupt`: calls `sys.exit(0)`. -/
def handle_user_interrupt (_ : ErrVal) : HandleRes := .systemExit 0

/-- Generic handler `_handle_generic`: records the error message without
    raising further. -/
def handle_generic (e : ErrVal) : HandleRes := .genericLogged e.message

/-- Fallback `_fallback_token_limit`: returns the dict
    with status "retrying" and action "reduce_context". -/
def fallback_token_limit (_ : ErrVal) : List (String × String) :=
  [("status", "retrying"), ("action", "reduce_context")]

/-- Fallback `_fallback_timeout`: returns the dict
    with status "retrying" and action "backoff_retry". -/
def fallback_timeout (_ : ErrVal) : List (String × String) :=
  [("status", "retrying"), ("action", "backoff_retry")]

/-- Fallback `_fallback_invalid_output`: returns the dict
    with status "retrying" and action "simplify_request". -/
def fallback_invalid_output (_ : ErrVal) : List (String × String) :=
  [("status", "retrying"), ("action", "simplify_request")]

/-- Generic fallback `_fallback_generic`: returns the dict with
    status "error" and the error's message (`str(error)` of a `DAIError`
    is its message). -/
def fallback_generic (e : ErrVal) : List (String × String) :=
  [("status", "error"), ("message", e.message)]

/-- State of an `ErrorHandler` instance: its two registries are Python dicts
    keyed by exception class, modelled as insertion-ordered association
    lists, plus the `last_error` slot. -/
structure ErrorHandler where
  verbose : Bool
  error_registry : List (ErrKind × (ErrVal → HandleRes))
  fallback_registry : List (ErrKind × (ErrVal → List (String × String)))
  last_error : Option ErrVal

/-- Method `register_handler`: dict assignment into `error_registry`
    (re-registration of an exact kind replaces in place, otherwise appends). -/
def ErrorHandler.register_handler (st : ErrorHandler) (error_type : ErrKind)
    (handler : ErrVal → HandleRes) : ErrorHandler :=
  { st with error_registry :=
      if st.error_registry.any (fun p => decide (p.1 = error_type)) then
        st.error_registry.map (fun p => if p.1 = error_type then (error_type, handler) else p)
      else
        st.error_registry ++ [(error_type, handler)] }

/-- Method `register_fallback`: dict assignment into `fallback_registry`. -/
def ErrorHandler.register_fallback (st : ErrorHandler) (error_type : ErrKind)
    (fb : ErrVal → List (String × String)) : ErrorHandler :=
  { st with fallback_registry :=
      if st.fallback_registry.any (fun p => decide (p.1 = error_type)) then
        st.fallback_registry.map (fun p => if p.1 = error_type then (error_type, fb) else p)
      else
        st.fallback_registry ++ [(error_type, fb)] }

/-- Constructor `ErrorHandler.__init__`: empty registries, then
    `_register_default_handlers` runs, registering the default handlers and
    fallbacks in source order. -/
def mkErrorHandler (verbose : Bool) : ErrorHandler :=
  (((((((ErrorHandler.mk verbose [] [] none).register_handler
    .tokenLimit handle_token_limit).register_handler
    .llmTimeout handle_timeout).register_handler
    .invalidOutput handle_invalid_output).register_handler
    .userInterrupt handle_user_interrupt).register_fallback
    .tokenLimit fallback_token_limit).register_fallback
    .llmTimeout fallback_timeout).register_fallback
    .invalidOutput fallback_invalid_output

/-- The registry scan shared by `handle` and `fallback`: iterate the registry
    in insertion order and return the first entry whose registered class
    matches by `isinstance`. -/
def findRegistered {β : Type} (registry : List (ErrKind × β)) (k : ErrKind) : Option β :=
  registry.findSome? (fun p => if isinstance k p.1 then some p.2 else none)

/-- Method `handle`: records the error in `last_error`, then dispatches to
    the first registered handler (insertion order) whose class matches by
    `isinstance`; if none matches, runs `_handle_generic`. -/
def ErrorHandler.handle (st : ErrorHandler) (error : ErrVal) : ErrorHandler × HandleRes :=
  let st := { st with last_error := some error }
  match findRegistered st.error_registry error.kind with
  | some handler => (st, handler error)
  | none => (st, handle_generic error)

/-- Method `fallback`: dispatches to the first registered fallback (insertion
    order) whose class matches by `isinstance`; if none matches, runs
    `_fallback_generic`. -/
def ErrorHandler.fallback (st : ErrorHandler) (error : ErrVal) : List (String × String) :=
  match findRegistered st.fallback_registry error.kind with
  | some fb => fb error
  | none => fallback_generic error

/-! ## Retry wrapper (src/error_handling/handler.py, `retry`) -/

/-- Outcome of a call to a retry-wrapped operation: a returned value, a
    propagated exception, or the implicit `None` returned when the attempt
    loop never runs (only possible with `max_attempts = 0`). -/
inductive ROutcome (α : Type) where
  | ok (v : α)
  | raised (e : ErrVal)
  | noneResult
  deriving DecidableEq, Repr

/-- The attempt loop of the retry wrapper (identical in the sync and async
    wrappers). `f n` is the operation's behaviour on its n-th invocation
    (attempts are 1-indexed). Returns the outcome, the number of invocations
    performed, and the list of backoff waits inserted between attempts, in
    order; `backoff_factor ** (attempt - 1)` is computed in exact rational
    arithmetic. A failure whose kind matches no entry of `exceptions` is not
    caught by the except clause and propagates at once. -/
def retryLoop {α : Type} (f : Nat → Except ErrVal α) (max_attempts : Nat)
    (backoff_factor : ℚ) (exceptions : List ErrKind) (attempt : Nat) :
    ROutcome α × Nat × List ℚ :=
  if _h : attempt ≤ max_attempts then
    match f attempt with
    | .ok v => (.ok v, 1, [])
    | .error e =>
      if exceptions.any (fun k => isinstance e.kind k) then
        if attempt < max_attempts then
          let rest := retryLoop f max_attempts backoff_factor exceptions (attempt + 1)
          (rest.1, rest.2.1 + 1, (backoff_factor ^ (attempt - 1)) :: rest.2.2)
        else
          (.raised e, 1, [])
      else
        (.raised e, 1, [])
  else
    (.noneResult, 0, [])
termination_by max_attempts + 1 - attempt

/-- The default retryable exception list of `retry` (`exceptions is None`). -/
def default_retry_exceptions : List ErrKind := [.llmTimeout, .tokenLimit]

/-- A call to a function wrapped by `retry(max_attempts, backoff_factor,
    exceptions)`: the attempt loop starting at attempt 1. -/
def retryCall {α : Type} (max_attempts : Nat) (backoff_factor : ℚ)
    (exceptions : List ErrKind) (f : Nat → Except ErrVal α) :
    ROutcome α × Nat × List ℚ :=
  retryLoop f max_attempts backoff_factor exceptions 1

/-! ## Dependency-graph executor (src/dependency_graph/executor.py) -/

/-- The `AgentTask` dataclass: a task with its id, dependency ids, the
    injected asynchronous operation (modelled as a pure function of the
    positional arguments and the effective keyword arguments), its bound
    inputs, and its completion flag. The dataclass also declares a `result`
    field, but the source never assigns it (`execute` stores results only in
    the executor's `results` dict), so it is omitted as dead state. -/
structure AgentTask (α : Type) where
  agent_id : String
  depends_on : List String
  executor : List α → List (String × α) → α
  args : List α
  kwargs : List (String × α)
  completed : Bool

/-- The ids of the declared tasks, in declaration (dict insertion) order. -/
def taskIds {α : Type} (tasks : List (AgentTask α)) : List String :=
  tasks.map (fun t => t.agent_id)

/-- The set of ids of tasks currently flagged completed; the list
    comprehension of `execute` step 5 builds exactly these ids. -/
def completed_ids {α : Type} (tasks : List (AgentTask α)) : Finset String :=
  ((tasks.filter (fun t => t.completed)).map (fun t => t.agent_id)).toFinset

/-- Method `_get_ready_tasks`: tasks not yet flagged completed all of whose
    dependencies are in the completed-id set, in declaration order. -/
def get_ready_tasks {α : Type} (tasks : List (AgentTask α))
    (completed_tasks : Finset String) : List String :=
  taskIds (tasks.filter (fun t =>
    !t.completed && t.depends_on.all (fun dep => decide (dep ∈ completed_tasks))))

/-- The dependency loop of `_execute_task`'s keyword-argument preparation:
    for each dependency id in order, if the key `"<dep>_result"` is not
    already present in the accumulated kwargs, append that dependency's
    stored result under it; `none` models the KeyError raised when a
    dependency has no stored result. -/
def build_kwargs_loop {α : Type} (results : List (String × α)) :
    List String → List (String × α) → Option (List (String × α))
  | [], kw => some kw
  | dep_id :: rest, kw =>
    let key := dep_id ++ "_result"
    if kw.any (fun p => decide (p.1 = key)) then
      build_kwargs_loop results rest kw
    else
      match dictLookup results dep_id with
      | some r => build_kwargs_loop results rest (kw ++ [(key, r)])
      | none => none

/-- The keyword-argument preparation of `_execute_task`: a copy of the task's
    own kwargs, extended by the dependency loop. -/
def build_kwargs {α : Type} (results : List (String × α)) (t : AgentTask α) :
    Option (List (String × α)) :=
  build_kwargs_loop results t.depends_on t.kwargs

/-- The mutation `self.tasks[task_id].completed = True`. -/
def set_completed {α : Type} (tasks : List (AgentTask α)) (task_id : String) :
    List (AgentTask α) :=
  tasks.map (fun t => if t.agent_id = task_id then { t with completed := true } else t)

/-- Ghost record of one operation invocation: the launched task's id and
    dependency list, and the result store at the moment of invocation. -/
structure CallEvent (α : Type) where
  tid : String
  deps : List String
  resultsAt : List (String × α)
  deriving DecidableEq

/-- Method `_execute_task`: look the task up, build its effective keyword
    arguments, invoke its operation, flag it completed and store its result.
    `none` models a raised KeyError (unknown task id or missing dependency
    result). The returned `CallEvent` is a ghost log of the invocation. -/
def execute_task {α : Type} (tasks : List (AgentTask α)) (results : List (String × α))
    (task_id : String) :
    Option (List (AgentTask α) × List (String × α) × CallEvent α) :=
  match tasks.find? (fun t => decide (t.agent_id = task_id)) with
  | none => none
  | some t =>
    match build_kwargs results t with
    | none => none
    | some kw =>
      let result := t.executor t.args kw
      some (set_completed tasks task_id, dictInsert results task_id result,
        ⟨task_id, t.depends_on, results⟩)

/-- One round's `asyncio.gather` over the selected ready tasks. Tasks in one
    batch are mutually independent (a ready task's dependencies are all
    completed, and batch members are not), so running the coroutines in
    selection order is observationally faithful. -/
def run_batch {α : Type} : List (AgentTask α) → List (String × α) → List String →
    Option (List (AgentTask α) × List (String × α) × List (CallEvent α))
  | tasks, results, [] => some (tasks, results, [])
  | tasks, results, tid :: rest =>
    match execute_task tasks results tid with
    | none => none
    | some (ts, rs, ev) =>
      match run_batch ts rs rest with
      | none => none
      | some (ts', rs', evs) => some (ts', rs', ev :: evs)

/-- Failure modes of `execute`: `deadlock` is the
    `RuntimeError("Deadlock detected in dependency graph")` raise — the
    fatal structural-defect error of the spec's Dependency classification;
    `keyError` is a KeyError escaping `_execute_task`; `nonTermination`
    marks a state from which the source loop would iterate forever without
    changing state (reachable only with `max_concurrent = 0`, where a round
    launches an empty batch). -/
inductive ExecErr where
  | deadlock
  | keyError
  | nonTermination
  deriving DecidableEq, Repr

/-- Ghost record of one scheduling round: the completed-id set the round
    started from, the computed ready set, the ids actually launched, and the
    per-invocation call events of the round's batch. -/
structure RoundEvent (α : Type) where
  completedBefore : Finset String
  ready : List String
  launched : List String
  calls : List (CallEvent α)
  deriving DecidableEq

/-- The scheduling loop of `execute`, with an explicit iteration budget.
    Each body: if not all tasks are completed, compute the ready set; an
    empty ready set is a deadlock (the inner recheck of the source is
    redundant there, its guard being the loop condition); otherwise launch
    the first `max_concurrent` ready tasks, join the batch, and extend the
    completed-id set with every task flagged completed. Every iteration
    that launches a non-empty batch strictly grows the completed-id set
    (bounded by the task count), and an iteration that launches an empty
    batch repeats its state forever in the source, so a budget exceeding
    the task count is exact: exhausting it coincides with source-level
    divergence. The second component is the ghost round trace. -/
def execute_loop {α : Type} (fuel : Nat) (tasks : List (AgentTask α))
    (results : List (String × α)) (completed_tasks : Finset String)
    (max_concurrent : Nat) :
    (Except ExecErr (List (String × α))) × List (RoundEvent α) :=
  match fuel with
  | 0 => (.error .nonTermination, [])
  | fuel + 1 =>
    if completed_tasks.card < tasks.length then
      let ready_tasks := get_ready_tasks tasks completed_tasks
      if ready_tasks.isEmpty then
        (.error .deadlock, [])
      else
        let launched := ready_tasks.take max_concurrent
        match run_batch tasks results launched with
        | none => (.error .keyError, [])
        | some (tasks', results', calls) =>
          let completed' := completed_tasks ∪ completed_ids tasks'
          let rest := execute_loop fuel tasks' results' completed' max_concurrent
          (rest.1, ⟨completed_tasks, ready_tasks, launched, calls⟩ :: rest.2)
    else
      (.ok results, [])

/-- Method `execute` on an executor whose state is `tasks` (declaration
    order) and `results`: runs the scheduling loop from a fresh, empty
    completed-id set and returns the results dict, a deadlock error, or a
    key error. -/
def execute {α : Type} (tasks : List (AgentTask α)) (results : List (String × α))
    (max_concurrent : Nat) : Except ExecErr (List (String × α)) :=
  (execute_loop (tasks.length + 1) tasks results ∅ max_concurrent).1

/-- The ghost round trace of the same `execute` call. -/
def execute_trace {α : Type} (tasks : List (AgentTask α)) (results : List (String × α))
    (max_concurrent : Nat) : List (RoundEvent α) :=
  (execute_loop (tasks.length + 1) tasks results ∅ max_concurrent).2

/-- The dependency relation declared by a task list: `DepRel tasks a b`
    holds when some declared task with id `b` lists `a` among its
    dependencies. Acyclicity of a graph is well-foundedness of this
    relation. -/
def DepRel {α : Type} (tasks : List (AgentTask α)) (a b : String) : Prop :=
  ∃ t ∈ tasks, t.agent_id = b ∧ a ∈ t.depends_on

/-- A dependency cycle among the declared tasks: a non-empty list of ids,
    each of whose tasks depends on the cyclically next id. -/
def IsDepCycle {α : Type} (tasks : List (AgentTask α)) (c : List String) : Prop :=
  c ≠ [] ∧ ∀ i : Fin c.length,
    ∃ t ∈ tasks, t.agent_id = c.get i ∧
      c.get ⟨(i.val + 1) % c.length, Nat.mod_lt _ i.pos⟩ ∈ t.depends_on

/-! ## Basic lemmas about the dict model -/

theorem dictLookup_append {β : Type} (l1 l2 : List (String × β)) (k : String) :
    dictLookup (l1 ++ l2) k = ((dictLookup l1 k).map some).getD (dictLookup l2 k) := by
  induction l1 with
  | nil => simp [dictLookup]
  | cons p rest ih =>
    by_cases h : p.1 = k <;> simp [dictLookup, h, ih]

theorem dictLookup_append_left {β : Type} {l1 : List (String × β)} {k : String} {v : β}
    (l2 : List (String × β)) (h : dictLookup l1 k = some v) :
    dictLookup (l1 ++ l2) k = some v := by
  rw [dictLookup_append, h]; rfl

theorem dictLookup_append_right {β : Type} {l1 : List (String × β)} {k : String}
    (l2 : List (String × β)) (h : dictLookup l1 k = none) :
    dictLookup (l1 ++ l2) k = dictLookup l2 k := by
  rw [dictLookup_append, h]; rfl

theorem dictLookup_isSome_iff {β : Type} (l : List (String × β)) (k : String) :
    (dictLookup l k).isSome ↔ k ∈ dictKeys l := by
  induction l with
  | nil => simp [dictLookup, dictKeys]
  | cons p rest ih =>
    by_cases h : p.1 = k <;> simp [dictLookup, dictKeys, h, ih] <;> tauto

theorem any_key_eq_lookup_isSome {β : Type} (l : List (String × β)) (k : String) :
    l.any (fun p => decide (p.1 = k)) = (dictLookup l k).isSome := by
  induction l with
  | nil => simp [dictLookup]
  | cons p rest ih =>
    by_cases h : p.1 = k <;> simp [dictLookup, h, ih]

theorem dictLookup_dictInsert_self {β : Type} (l : List (String × β)) (k : String) (v : β) :
    dictLookup (dictInsert l k v) k = some v := by
  unfold dictInsert
  split
  · next hany =>
    induction l with
    | nil => simp at hany
    | cons p rest ih =>
      by_cases h : p.1 = k
      · simp [h, dictLookup]
      · simp only [List.any_cons, Bool.or_eq_true, decide_eq_true_eq] at hany
        rcases hany with h' | h'
        · exact absurd h' h
        · simp only [List.map_cons, if_neg h]
          rw [dictLookup]
          simp only [if_neg h]
          exact ih h'
  · induction l with
    | nil => simp [dictLookup]
    | cons p rest ih =>
      next hany =>
      simp only [List.any_cons, Bool.or_eq_true, decide_eq_true_eq, not_or] at hany
      simp only [List.cons_append]
      rw [dictLookup]
      simp only [if_neg hany.1]
      exact ih (by simpa using hany.2)

theorem dictLookup_mapReplace_ne {β : Type} (l : List (String × β)) (k k' : String) (v : β)
    (h : k' ≠ k) :
    dictLookup (l.map (fun p => if p.1 = k then (k, v) else p)) k' = dictLookup l k' := by
  induction l with
  | nil => rfl
  | cons p rest ih =>
    by_cases hp : p.1 = k
    · simp [dictLookup, hp, Ne.symm h, ih]
    · by_cases hk2 : p.1 = k' <;> simp [dictLookup, hp, hk2, h, ih]

theorem dictLookup_dictInsert_ne {β : Type} (l : List (String × β)) (k k' : String) (v : β)
    (h : k' ≠ k) : dictLookup (dictInsert l k v) k' = dictLookup l k' := by
  unfold dictInsert
  split
  · exact dictLookup_mapReplace_ne l k k' v h
  · rw [dictLookup_append]
    cases hl : dictLookup l k' with
    | some v' => rfl
    | none => simp [hl, dictLookup, Ne.symm h]

theorem dictKeys_dictInsert_of_not_mem {β : Type} (l : List (String × β)) (k : String) (v : β)
    (h : k ∉ dictKeys l) : dictKeys (dictInsert l k v) = dictKeys l ++ [k] := by
  unfold dictInsert
  rw [if_neg]
  · simp [dictKeys]
  · rw [any_key_eq_lookup_isSome]
    simp [dictLookup_isSome_iff, h]

theorem dictLookup_isSome_dictInsert {β : Type} (l : List (String × β)) (k k' : String) (v : β)
    (h : (dictLookup l k').isSome) : (dictLookup (dictInsert l k v) k').isSome := by
  by_cases hk : k' = k
  · subst hk; simp [dictLookup_dictInsert_self]
  · rwa [dictLookup_dictInsert_ne _ _ _ _ hk]

/-! ## Lemmas about registry dispatch -/

theorem findRegistered_none {β : Type} (registry : List (ErrKind × β)) (k : ErrKind)
    (h : ∀ p ∈ registry, isinstance k p.1 = false) : findRegistered registry k = none := by
  induction registry with
  | nil => rfl
  | cons p rest ih =>
    unfold findRegistered at *
    rw [List.findSome?_cons]
    rw [if_neg (by simp [h p (List.mem_cons_self p rest)])]
    exact ih (fun q hq => h q (List.mem_cons_of_mem p hq))

theorem findRegistered_first {β : Type} (pre post : List (ErrKind × β)) (k : ErrKind) (b : β)
    (ek : ErrKind) (hk : isinstance ek k = true)
    (hpre : ∀ p ∈ pre, isinstance ek p.1 = false) :
    findRegistered (pre ++ (k, b) :: post) ek = some b := by
  induction pre with
  | nil => unfold findRegistered; rw [List.nil_append, List.findSome?_cons, if_pos hk]
  | cons p rest ih =>
    unfold findRegistered at *
    rw [List.cons_append, List.findSome?_cons]
    rw [if_neg (by simp [hpre p (List.mem_cons_self p rest)])]
    exact ih (fun q hq => hpre q (List.mem_cons_of_mem p hq))

/-! ## Claims about the retry wrapper and the error handler -/

/-- C5: with `maxAttempts = 3` and `backoffFactor = 2`, an operation that
    fails on its first two invocations with retryable kinds and succeeds on
    the third is invoked exactly 3 times, the call returns the third
    invocation's success value, and the backoff waits inserted before the
    retries are `2 ^ 0 = 1` and `2 ^ 1 = 2` time units. -/
theorem C5_retry_two_failures_then_success {α : Type} (e1 e2 : ErrVal) (v : α)
    (f : Nat → Except ErrVal α)
    (hf1 : f 1 = .error e1) (hf2 : f 2 = .error e2) (hf3 : f 3 = .ok v)
    (hk1 : default_retry_exceptions.any (fun k => isinstance e1.kind k) = true)
    (hk2 : default_retry_exceptions.any (fun k => isinstance e2.kind k) = true) :
    retryCall 3 2 default_retry_exceptions f = (.ok v, 3, [1, 2]) := by
  unfold retryCall
  rw [retryLoop]
  simp only [hf1, hk1]
  norm_num
  rw [retryLoop]
  simp only [hf2, hk2]
  norm_num
  rw [retryLoop]
  simp [hf3]

/-- Witness for C5 at a concrete operation failing with a timeout then a
    token-limit error, then returning 42. -/
theorem C5_witness :
    retryCall 3 2 default_retry_exceptions
      (fun n => if n = 1 then .error ⟨.llmTimeout, "t", .error⟩
                else if n = 2 then .error ⟨.tokenLimit, "q", .error⟩
                else .ok (42 : Nat)) = (.ok 42, 3, [1, 2]) :=
  C5_retry_two_failures_then_success ⟨.llmTimeout, "t", .error⟩ ⟨.tokenLimit, "q", .error⟩ 42 _
    rfl rfl rfl (by decide) (by decide)

/-- C6: for every configuration with at least one attempt, an operation whose
    first invocation fails with a kind matching none of the configured
    retryable exception classes is invoked exactly once, the original error
    propagates unchanged, and no backoff wait is inserted. -/
theorem C6_retry_nonretryable_single_call {α : Type} (max_attempts : Nat)
    (backoff_factor : ℚ) (exceptions : List ErrKind) (f : Nat → Except ErrVal α)
    (e : ErrVal) (hmax : 1 ≤ max_attempts) (hf : f 1 = .error e)
    (hk : exceptions.any (fun k => isinstance e.kind k) = false) :
    retryCall max_attempts backoff_factor exceptions f = (.raised e, 1, []) := by
  unfold retryCall
  rw [retryLoop]
  simp [hmax, hf, hk]

/-- Witness for C6 at a concrete always-failing operation raising a
    dependency error, which the default configuration does not retry. -/
theorem C6_witness :
    retryCall 3 (3/2) default_retry_exceptions
      (fun _ => (.error ⟨.dependency, "d", .error⟩ : Except ErrVal Nat))
      = (ROutcome.raised ⟨.dependency, "d", .error⟩, 1, ([] : List ℚ)) :=
  C6_retry_nonretryable_single_call 3 (3/2) default_retry_exceptions _
    ⟨.dependency, "d", .error⟩ (by decide) rfl (by decide)

/-- C9: on a freshly constructed ErrorHandler, `fallback` of a
    TokenLimit-kind error is the reduce-context retrying action, `fallback`
    of a Timeout-kind error is the backoff-retry retrying action, and
    `fallback` of an error matching no registered fallback class is the
    generic error-status dict carrying the error's message. -/
theorem C9_fallback_actions (verbose : Bool) (e : ErrVal) :
    (e.kind = .tokenLimit →
      (mkErrorHandler verbose).fallback e = [("status", "retrying"), ("action", "reduce_context")])
    ∧ (e.kind = .llmTimeout →
      (mkErrorHandler verbose).fallback e = [("status", "retrying"), ("action", "backoff_retry")])
    ∧ ((∀ p ∈ (mkErrorHandler verbose).fallback_registry, isinstance e.kind p.1 = false) →
      (mkErrorHandler verbose).fallback e = [("status", "error"), ("message", e.message)]) := by
  have hreg : (mkErrorHandler verbose).fallback_registry =
      [(.tokenLimit, fallback_token_limit), (.llmTimeout, fallback_timeout),
       (.invalidOutput, fallback_invalid_output)] := rfl
  refine ⟨fun h1 => ?_, fun h2 => ?_, fun h3 => ?_⟩
  · unfold ErrorHandler.fallback
    rw [hreg, show ([(ErrKind.tokenLimit, fallback_token_limit), (.llmTimeout, fallback_timeout),
          (.invalidOutput, fallback_invalid_output)]) =
        [] ++ (ErrKind.tokenLimit, fallback_token_limit) :: [(.llmTimeout, fallback_timeout),
          (.invalidOutput, fallback_invalid_output)] from rfl,
      findRegistered_first _ _ _ _ _ (by rw [h1]; decide) (by simp)]
    rfl
  · unfold ErrorHandler.fallback
    rw [hreg, show ([(ErrKind.tokenLimit, fallback_token_limit), (.llmTimeout, fallback_timeout),
          (.invalidOutput, fallback_invalid_output)]) =
        [(ErrKind.tokenLimit, fallback_token_limit)] ++ (ErrKind.llmTimeout, fallback_timeout) ::
          [(.invalidOutput, fallback_invalid_output)] from rfl,
      findRegistered_first _ _ _ _ _ (by rw [h2]; decide)
        (by intro p hp; simp at hp; subst hp; rw [h2]; decide)]
    rfl
  · unfold ErrorHandler.fallback
    rw [findRegistered_none _ _ h3]
    rfl

/-- Witness for C9 at concrete token-limit, timeout, and dependency errors. -/
theorem C9_witness :
    (mkErrorHandler false).fallback ⟨.tokenLimit, "m1", .error⟩
        = [("status", "retrying"), ("action", "reduce_context")]
    ∧ (mkErrorHandler false).fallback ⟨.llmTimeout, "m2", .error⟩
        = [("status", "retrying"), ("action", "backoff_retry")]
    ∧ (mkErrorHandler false).fallback ⟨.dependency, "m3", .error⟩
        = [("status", "error"), ("message", "m3")] :=
  ⟨(C9_fallback_actions false ⟨.tokenLimit, "m1", .error⟩).1 rfl,
   (C9_fallback_actions false ⟨.llmTimeout, "m2", .error⟩).2.1 rfl,
   (C9_fallback_actions false ⟨.dependency, "m3", .error⟩).2.2 (by decide)⟩

/-- An ErrorHandler on which a handler for the base DAIError class was
    registered before a handler for its strict subclass LLMError. -/
def orderSensitiveHandler : ErrorHandler :=
  ((mkErrorHandler false).register_handler .dai (fun _ => .custom "h1")).register_handler
    .llm (fun _ => .custom "h2")

/-- Counterexample to C4: the error's kind LLMError has an exactly matching
    registered handler (returning the tag "h2"), yet `handle` runs the
    handler registered earlier for the strict ancestor DAIError (tag "h1"):
    dispatch follows registration order, not specificity. -/
theorem C4_counterexample :
    (orderSensitiveHandler.handle ⟨.llm, "boom", .error⟩).2 = .custom "h1"
    ∧ ((ErrKind.llm, fun _ => HandleRes.custom "h2") :
        ErrKind × (ErrVal → HandleRes)) ∈ orderSensitiveHandler.error_registry
    ∧ HandleRes.custom "h1" ≠ HandleRes.custom "h2" := by
  refine ⟨rfl, ?_, by decide⟩
  have hreg : orderSensitiveHandler.error_registry =
      [(.tokenLimit, handle_token_limit), (.llmTimeout, handle_timeout),
       (.invalidOutput, handle_invalid_output), (.userInterrupt, handle_user_interrupt),
       (.dai, fun _ => .custom "h1"), (.llm, fun _ => .custom "h2")] := rfl
  rw [hreg]
  simp

/-- C4 (amended): `handle` records the error in `last_error` and dispatches
    to the earliest-registered handler whose registered class matches the
    error's kind by exact-or-ancestor (isinstance) test — registration
    order, not specificity, breaks ties; if no registered class matches,
    the generic handler runs, recording the error's message without
    raising. -/
theorem ErrorHandler.handle_eq (st : ErrorHandler) (e : ErrVal) :
    st.handle e = ({ st with last_error := some e },
      match findRegistered st.error_registry e.kind with
      | some h => h e
      | none => handle_generic e) := by
  unfold ErrorHandler.handle
  cases hfr : findRegistered st.error_registry e.kind <;> simp [hfr]

theorem C4_first_match_dispatch (st : ErrorHandler) (e : ErrVal) :
    ((∀ p ∈ st.error_registry, isinstance e.kind p.1 = false) →
      (st.handle e).2 = handle_generic e)
    ∧ (∀ (pre post : List (ErrKind × (ErrVal → HandleRes))) (k : ErrKind)
        (h : ErrVal → HandleRes),
        st.error_registry = pre ++ (k, h) :: post →
        isinstance e.kind k = true →
        (∀ p ∈ pre, isinstance e.kind p.1 = false) →
        (st.handle e).2 = h e)
    ∧ (st.handle e).1.last_error = some e := by
  refine ⟨fun hnone => ?_, fun pre post k h hreg hk hpre => ?_,
    by rw [ErrorHandler.handle_eq]⟩
  · rw [ErrorHandler.handle_eq, findRegistered_none _ _ hnone]
  · rw [ErrorHandler.handle_eq, hreg, findRegistered_first _ _ _ _ _ hk hpre]

/-- Witness for the amended C4 on a fresh handler and a token-limit error:
    the first registered entry is the exact TokenLimitError handler. -/
theorem C4_witness :
    ((mkErrorHandler false).handle ⟨.tokenLimit, "m", .error⟩).2
      = handle_token_limit ⟨.tokenLimit, "m", .error⟩
    ∧ ((mkErrorHandler false).handle ⟨.tokenLimit, "m", .error⟩).1.last_error
      = some ⟨.tokenLimit, "m", .error⟩ :=
  ⟨(C4_first_match_dispatch (mkErrorHandler false) ⟨.tokenLimit, "m", .error⟩).2.1
      [] _ .tokenLimit handle_token_limit rfl (by decide) (by simp),
   (C4_first_match_dispatch (mkErrorHandler false) ⟨.tokenLimit, "m", .error⟩).2.2⟩

/-! ## Claims about the dependency-graph executor: persistent completion state -/

/-- C10: completion flags persist on the executor across `execute` calls:
    on a non-empty graph whose tasks are all already flagged completed
    (as after a prior successful `execute` on the same executor object), a
    further `execute` call computes an empty ready set against its fresh,
    empty completed-id set — which is smaller than the task count — and
    raises the deadlock error instead of returning the stored results. -/
theorem C10_stale_completion_deadlock {α : Type} (tasks : List (AgentTask α))
    (results : List (String × α)) (max_concurrent : Nat)
    (hne : tasks ≠ []) (hall : ∀ t ∈ tasks, t.completed = true) :
    execute tasks results max_concurrent = .error .deadlock := by
  have hlen : 0 < tasks.length := List.length_pos.mpr hne
  have hready : get_ready_tasks tasks (∅ : Finset String) = [] := by
    unfold get_ready_tasks taskIds
    rw [List.filter_eq_nil_iff.mpr, List.map_nil]
    intro t ht
    simp [hall t ht]
  unfold execute execute_loop
  simp [hlen, hready]

/-- Witness for C10: one already-completed task with a stored result. -/
theorem C10_witness :
    execute [⟨"a", [], (fun _ _ => 0), [], [], true⟩] [("a", (7 : Nat))] 5
      = .error .deadlock :=
  C10_stale_completion_deadlock _ _ 5 (by simp)
    (by intro t ht; rw [List.mem_singleton] at ht; rw [ht])

/-! ## Claim C7: effective named inputs of a task -/

theorem string_append_cancel_right {a b s : String} (h : a ++ s = b ++ s) : a = b := by
  have hd : a.data ++ s.data = b.data ++ s.data := by
    rw [← String.data_append, ← String.data_append, h]
  exact String.ext (List.append_left_injective s.data hd)

theorem build_kwargs_go {α : Type} (results : List (String × α)) :
    ∀ (deps : List String) (kw : List (String × α)),
    (∀ d ∈ deps, (dictLookup results d).isSome) →
    ∃ kw', build_kwargs_loop results deps kw = some kw'
      ∧ (∀ k, (dictLookup kw k).isSome → dictLookup kw' k = dictLookup kw k)
      ∧ (∀ d ∈ deps, dictLookup kw (d ++ "_result") = none →
          dictLookup kw' (d ++ "_result") = dictLookup results d)
      ∧ (∀ k, (dictLookup kw' k).isSome →
          (dictLookup kw k).isSome ∨ ∃ d ∈ deps, k = d ++ "_result") := by
  intro deps
  induction deps with
  | nil =>
    intro kw _
    exact ⟨kw, rfl, fun k _ => rfl, by simp, fun k hk => Or.inl hk⟩
  | cons d0 rest ih =>
    intro kw hdep
    have hd0 : (dictLookup results d0).isSome := hdep d0 (List.mem_cons_self d0 rest)
    by_cases hpresent : (dictLookup kw (d0 ++ "_result")).isSome
    · -- the synthesized key is already present: the dict is unchanged
      obtain ⟨kw', hfold, hpres, hsyn, hdom⟩ :=
        ih kw (fun d hd => hdep d (List.mem_cons_of_mem d0 hd))
      refine ⟨kw', ?_, hpres, ?_, ?_⟩
      · rw [build_kwargs_loop]
        simp only [any_key_eq_lookup_isSome, hpresent, if_true]
        exact hfold
      · intro d hd hnone
        rcases List.mem_cons.mp hd with rfl | hd
        · rw [hnone] at hpresent
          simp at hpresent
        · exact hsyn d hd hnone
      · intro k hk
        rcases hdom k hk with h | ⟨d, hd, rfl⟩
        · exact Or.inl h
        · exact Or.inr ⟨d, List.mem_cons_of_mem d0 hd, rfl⟩
    · -- the key is absent: the dependency's stored result is appended
      obtain ⟨r0, hr0⟩ := Option.isSome_iff_exists.mp hd0
      have hnone0 : dictLookup kw (d0 ++ "_result") = none :=
        Option.eq_none_iff_forall_not_mem.mpr (by
          intro v hv
          exact hpresent (by simp [Option.isSome_iff_exists]; exact ⟨v, hv⟩))
      obtain ⟨kw', hfold, hpres, hsyn, hdom⟩ :=
        ih (kw ++ [(d0 ++ "_result", r0)]) (fun d hd => hdep d (List.mem_cons_of_mem d0 hd))
      have hkw1self : dictLookup (kw ++ [(d0 ++ "_result", r0)]) (d0 ++ "_result") = some r0 := by
        rw [dictLookup_append_right _ hnone0]
        simp [dictLookup]
      refine ⟨kw', ?_, ?_, ?_, ?_⟩
      · rw [build_kwargs_loop]
        simp only [any_key_eq_lookup_isSome, hnone0, Option.isSome_none, Bool.false_eq_true,
          if_false, hr0]
        exact hfold
      · intro k hk
        obtain ⟨v, hv⟩ := Option.isSome_iff_exists.mp hk
        have h1 : dictLookup (kw ++ [(d0 ++ "_result", r0)]) k = some v :=
          dictLookup_append_left _ hv
        rw [hpres k (by simp [h1]), h1, hv]
      · intro d hd hnone
        rcases List.mem_cons.mp hd with rfl | hd
        · rw [hpres _ (by simp [hkw1self]), hkw1self, hr0]
        · by_cases heq : d ++ "_result" = d0 ++ "_result"
          · have : d = d0 := string_append_cancel_right heq
            subst this
            rw [hpres _ (by simp [hkw1self]), hkw1self, hr0]
          · refine hsyn d hd ?_
            rw [dictLookup_append_right _ hnone]
            simp only [dictLookup, if_neg (fun h => heq (Eq.symm h))]
      · intro k hk
        rcases hdom k hk with h1 | ⟨d, hd, rfl⟩
        · by_cases heq : k = d0 ++ "_result"
          · exact Or.inr ⟨d0, List.mem_cons_self d0 rest, heq⟩
          · left
            rw [dictLookup_append] at h1
            cases hl : dictLookup kw k with
            | some v => simp [hl]
            | none =>
              rw [hl] at h1
              simp [dictLookup] at h1
              exact absurd h1.symm heq
        · exact Or.inr ⟨d, List.mem_cons_of_mem d0 hd, rfl⟩

/-- C7: when every dependency of a task has a stored result, the effective
    named inputs are exactly the task's pre-declared kwargs extended with,
    for each dependency id d whose key "d_result" is not pre-declared, an
    entry binding "d_result" to d's stored result; a pre-declared key wins
    over the synthesized one, and no other keys appear. -/
theorem C7_effective_inputs {α : Type} (t : AgentTask α) (results : List (String × α))
    (hdep : ∀ d ∈ t.depends_on, (dictLookup results d).isSome) :
    ∃ kw, build_kwargs results t = some kw
      ∧ (∀ k, (dictLookup t.kwargs k).isSome → dictLookup kw k = dictLookup t.kwargs k)
      ∧ (∀ d ∈ t.depends_on, dictLookup t.kwargs (d ++ "_result") = none →
          dictLookup kw (d ++ "_result") = dictLookup results d)
      ∧ (∀ k, (dictLookup kw k).isSome →
          (dictLookup t.kwargs k).isSome ∨ ∃ d ∈ t.depends_on, k = d ++ "_result") :=
  build_kwargs_go results t.depends_on t.kwargs hdep

/-- Witness for C7: task c depends on a and b, pre-declares the key
    b_result (which wins), and a_result is synthesized from a's stored
    result. -/
theorem C7_witness :
    ∃ kw, build_kwargs [("a", (5 : Nat)), ("b", 6)]
        ⟨"c", ["a", "b"], (fun _ _ => 0), [], [("b_result", 9)], false⟩ = some kw
      ∧ (∀ k, (dictLookup [("b_result", 9)] k).isSome →
          dictLookup kw k = dictLookup [("b_result", 9)] k)
      ∧ (∀ d ∈ ["a", "b"], dictLookup [("b_result", 9)] (d ++ "_result") = none →
          dictLookup kw (d ++ "_result") = dictLookup [("a", 5), ("b", 6)] d)
      ∧ (∀ k, (dictLookup kw k).isSome →
          (dictLookup [("b_result", 9)] k).isSome ∨ ∃ d ∈ ["a", "b"], k = d ++ "_result") :=
  C7_effective_inputs ⟨"c", ["a", "b"], (fun _ _ => 0), [], [("b_result", 9)], false⟩
    [("a", 5), ("b", 6)] (by decide)

/-! ## Infrastructure for the scheduler proofs -/

/-- The completion-flag-insensitive part of a task: two task lists with equal
    shapes are the same declared graph, differing at most in flags. -/
def AgentTask.shape {α : Type} (t : AgentTask α) : AgentTask α :=
  { t with completed := false }

theorem shape_agent_id {α : Type} (t : AgentTask α) : t.shape.agent_id = t.agent_id := rfl

theorem shape_depends_on {α : Type} (t : AgentTask α) : t.shape.depends_on = t.depends_on := rfl

theorem set_completed_shape {α : Type} (ts : List (AgentTask α)) (tid : String) :
    (set_completed ts tid).map AgentTask.shape = ts.map AgentTask.shape := by
  unfold set_completed
  rw [List.map_map]
  apply List.map_congr_left
  intro t _
  by_cases h : t.agent_id = tid <;> simp [AgentTask.shape, h]

theorem taskIds_eq_of_shape {α : Type} {ts ts' : List (AgentTask α)}
    (h : ts.map AgentTask.shape = ts'.map AgentTask.shape) : taskIds ts = taskIds ts' := by
  have key : ∀ (l : List (AgentTask α)),
      taskIds l = (l.map AgentTask.shape).map (fun t => t.agent_id) := by
    intro l
    rw [List.map_map]
    rfl
  rw [key ts, key ts', h]

theorem length_eq_of_shape {α : Type} {ts ts' : List (AgentTask α)}
    (h : ts.map AgentTask.shape = ts'.map AgentTask.shape) : ts.length = ts'.length := by
  have := congrArg List.length h
  simpa using this

theorem mem_of_shape {α : Type} {ts ts' : List (AgentTask α)}
    (h : ts.map AgentTask.shape = ts'.map AgentTask.shape) {t : AgentTask α} (ht : t ∈ ts) :
    ∃ t' ∈ ts', t'.agent_id = t.agent_id ∧ t'.depends_on = t.depends_on := by
  have hmem : AgentTask.shape t ∈ ts'.map AgentTask.shape := by
    rw [← h]
    exact List.mem_map_of_mem AgentTask.shape ht
  obtain ⟨t', ht', hst⟩ := List.mem_map.mp hmem
  refine ⟨t', ht', ?_, ?_⟩
  · rw [← shape_agent_id t', hst, shape_agent_id]
  · rw [← shape_depends_on t', hst, shape_depends_on]

theorem mem_completed_ids {α : Type} {ts : List (AgentTask α)} {s : String} :
    s ∈ completed_ids ts ↔ ∃ t ∈ ts, t.completed = true ∧ t.agent_id = s := by
  unfold completed_ids
  simp [List.mem_filter]
  tauto

theorem completed_ids_subset_taskIds {α : Type} (ts : List (AgentTask α)) :
    completed_ids ts ⊆ (taskIds ts).toFinset := by
  intro s hs
  obtain ⟨t, ht, _, hid⟩ := mem_completed_ids.mp hs
  rw [List.mem_toFinset]
  exact hid ▸ List.mem_map_of_mem (fun t => t.agent_id) ht

theorem completed_ids_empty {α : Type} {ts : List (AgentTask α)}
    (h : ∀ t ∈ ts, t.completed = false) : completed_ids ts = ∅ := by
  ext s
  simp only [Finset.not_mem_empty, iff_false, mem_completed_ids]
  rintro ⟨t, ht, hc, _⟩
  rw [h t ht] at hc
  exact Bool.false_ne_true hc

theorem completed_ids_set_completed {α : Type} (ts : List (AgentTask α)) (tid : String)
    (hmem : tid ∈ taskIds ts) :
    completed_ids (set_completed ts tid) = completed_ids ts ∪ {tid} := by
  ext s
  simp only [Finset.mem_union, Finset.mem_singleton, mem_completed_ids]
  constructor
  · rintro ⟨t, ht, hc, hid⟩
    unfold set_completed at ht
    obtain ⟨t0, ht0, hft⟩ := List.mem_map.mp ht
    by_cases h0 : t0.agent_id = tid
    · right
      rw [← hid, ← hft]
      simp [h0]
    · left
      rw [if_neg h0] at hft
      exact ⟨t0, ht0, by rw [hft]; exact hc, by rw [hft]; exact hid⟩
  · rintro (⟨t, ht, hc, hid⟩ | rfl)
    · refine ⟨if t.agent_id = tid then { t with completed := true } else t,
        List.mem_map_of_mem _ ht, ?_, ?_⟩
      · by_cases h0 : t.agent_id = tid
        · rw [if_pos h0]
        · rw [if_neg h0]
          exact hc
      · by_cases h0 : t.agent_id = tid
        · rw [if_pos h0]
          exact hid
        · rw [if_neg h0]
          exact hid
    · obtain ⟨t, ht, hid⟩ := List.mem_map.mp hmem
      refine ⟨if t.agent_id = s then { t with completed := true } else t,
        List.mem_map_of_mem _ ht, ?_, ?_⟩
      · rw [if_pos hid]
      · rw [if_pos hid]
        exact hid

theorem completed_ids_mono_set_completed {α : Type} (ts : List (AgentTask α)) (tid : String) :
    completed_ids ts ⊆ completed_ids (set_completed ts tid) := by
  intro s hs
  obtain ⟨t, ht, hc, hid⟩ := mem_completed_ids.mp hs
  refine mem_completed_ids.mpr ⟨if t.agent_id = tid then { t with completed := true } else t,
    List.mem_map_of_mem _ ht, ?_, ?_⟩
  · by_cases h0 : t.agent_id = tid
    · rw [if_pos h0]
    · rw [if_neg h0]
      exact hc
  · by_cases h0 : t.agent_id = tid
    · rw [if_pos h0]
      exact hid
    · rw [if_neg h0]
      exact hid

theorem mem_get_ready_tasks {α : Type} {ts : List (AgentTask α)} {cs : Finset String}
    {tid : String} :
    tid ∈ get_ready_tasks ts cs ↔
      ∃ t ∈ ts, t.agent_id = tid ∧ t.completed = false ∧ ∀ d ∈ t.depends_on, d ∈ cs := by
  unfold get_ready_tasks taskIds
  constructor
  · intro h
    obtain ⟨t, ht, hid⟩ := List.mem_map.mp h
    obtain ⟨ht', hcond⟩ := List.mem_filter.mp ht
    rw [Bool.and_eq_true, Bool.not_eq_true', List.all_eq_true] at hcond
    refine ⟨t, ht', hid, hcond.1, fun d hd => ?_⟩
    have := hcond.2 d hd
    simpa using this
  · rintro ⟨t, ht, hid, hc, hall⟩
    refine List.mem_map.mpr ⟨t, List.mem_filter.mpr ⟨ht, ?_⟩, hid⟩
    rw [Bool.and_eq_true, Bool.not_eq_true', List.all_eq_true]
    exact ⟨hc, fun d hd => by simpa using hall d hd⟩

theorem find?_of_mem_taskIds {α : Type} {ts : List (AgentTask α)} {tid : String}
    (h : tid ∈ taskIds ts) :
    ∃ t, ts.find? (fun t => decide (t.agent_id = tid)) = some t ∧ t ∈ ts ∧ t.agent_id = tid := by
  obtain ⟨t0, ht0, hid⟩ := List.mem_map.mp h
  have hsome : (ts.find? (fun t => decide (t.agent_id = tid))).isSome := by
    rw [List.find?_isSome]
    exact ⟨t0, ht0, by simp [hid]⟩
  obtain ⟨t, ht⟩ := Option.isSome_iff_exists.mp hsome
  refine ⟨t, ht, List.mem_of_find?_eq_some ht, ?_⟩
  have := List.find?_some ht
  simpa using this

theorem unique_of_nodup_taskIds {α : Type} {ts : List (AgentTask α)}
    (hnd : (taskIds ts).Nodup) {t t' : AgentTask α} (ht : t ∈ ts) (ht' : t' ∈ ts)
    (hid : t.agent_id = t'.agent_id) : t = t' :=
  List.inj_on_of_nodup_map hnd ht ht' hid

theorem build_kwargs_isSome {α : Type} (results : List (String × α)) (t : AgentTask α)
    (hdeps : ∀ d ∈ t.depends_on, (dictLookup results d).isSome) :
    ∃ kw, build_kwargs results t = some kw := by
  obtain ⟨kw, hkw, _⟩ := build_kwargs_go results t.depends_on t.kwargs hdeps
  exact ⟨kw, hkw⟩

theorem execute_task_spec {α : Type} {ts : List (AgentTask α)} {results : List (String × α)}
    {tid : String} {t : AgentTask α} {kw : List (String × α)}
    (hfind : ts.find? (fun t => decide (t.agent_id = tid)) = some t)
    (hkw : build_kwargs results t = some kw) :
    execute_task ts results tid =
      some (set_completed ts tid, dictInsert results tid (t.executor t.args kw),
        ⟨tid, t.depends_on, results⟩) := by
  simp only [execute_task, hfind, hkw]

theorem run_batch_spec {α : Type} (cs : Finset String) :
    ∀ (ids : List String) (ts : List (AgentTask α)) (results : List (String × α)),
    (∀ tid ∈ ids, ∃ t ∈ ts, t.agent_id = tid ∧ t.completed = false ∧
        ∀ d ∈ t.depends_on, d ∈ cs) →
    (∀ s ∈ cs, (dictLookup results s).isSome) →
    ids.Nodup →
    (taskIds ts).Nodup →
    (∀ tid ∈ ids, tid ∉ dictKeys results) →
    ∃ ts' rs' evs, run_batch ts results ids = some (ts', rs', evs)
      ∧ ts'.map AgentTask.shape = ts.map AgentTask.shape
      ∧ completed_ids ts' = completed_ids ts ∪ ids.toFinset
      ∧ dictKeys rs' = dictKeys results ++ ids
      ∧ ∀ ev ∈ evs, ev.tid ∈ ids
          ∧ (∃ t ∈ ts, t.agent_id = ev.tid ∧ t.depends_on = ev.deps)
          ∧ ∀ d ∈ ev.deps, d ∈ cs ∧ (dictLookup ev.resultsAt d).isSome := by
  intro ids
  induction ids with
  | nil =>
    intro ts results _ _ _ _ _
    exact ⟨ts, results, [], rfl, rfl, by simp, by simp, by simp⟩
  | cons tid rest ih =>
    intro ts results hready hcs hnodup hnd hfresh
    obtain ⟨t, ht, hid, hflag, hdeps⟩ := hready tid (List.mem_cons_self tid rest)
    have htid_mem : tid ∈ taskIds ts := hid ▸ List.mem_map_of_mem _ ht
    obtain ⟨t1, hfind, ht1mem, ht1id⟩ := find?_of_mem_taskIds htid_mem
    have ht1 : t1 = t := unique_of_nodup_taskIds hnd ht1mem ht (by rw [ht1id, hid])
    subst ht1
    have hdepsr : ∀ d ∈ t1.depends_on, (dictLookup results d).isSome :=
      fun d hd => hcs d (hdeps d hd)
    obtain ⟨kw, hkw⟩ := build_kwargs_isSome results t1 hdepsr
    have hexec := execute_task_spec hfind hkw
    set v := t1.executor t1.args kw with hv
    set ts1 := set_completed ts tid with hts1
    set rs1 := dictInsert results tid v with hrs1
    have htid_notin : tid ∉ dictKeys results := hfresh tid (List.mem_cons_self tid rest)
    have hkeys1 : dictKeys rs1 = dictKeys results ++ [tid] :=
      dictKeys_dictInsert_of_not_mem _ _ _ htid_notin
    have hshape1 : ts1.map AgentTask.shape = ts.map AgentTask.shape :=
      set_completed_shape ts tid
    have hcids1 : completed_ids ts1 = completed_ids ts ∪ {tid} :=
      completed_ids_set_completed ts tid htid_mem
    have htid_nin_rest : tid ∉ rest := (List.nodup_cons.mp hnodup).1
    obtain ⟨ts', rs', evs, hrb, hshape', hcids', hkeys', hevs⟩ :=
      ih ts1 rs1
        (by
          intro tid' htid'
          obtain ⟨t', ht', hid', hflag', hdeps'⟩ := hready tid' (List.mem_cons_of_mem tid htid')
          have hne : t'.agent_id ≠ tid := by
            rw [hid']
            exact fun h => htid_nin_rest (h ▸ htid')
          refine ⟨t', ?_, hid', hflag', hdeps'⟩
          rw [hts1]
          unfold set_completed
          have : (if t'.agent_id = tid then { t' with completed := true } else t') = t' :=
            if_neg hne
          rw [← this]
          exact List.mem_map_of_mem _ ht')
        (fun s hs => dictLookup_isSome_dictInsert _ _ _ _ (hcs s hs))
        (List.nodup_cons.mp hnodup).2
        (by rw [taskIds_eq_of_shape hshape1]; exact hnd)
        (by
          intro tid' htid'
          rw [hkeys1, List.mem_append]
          rintro (h | h)
          · exact hfresh tid' (List.mem_cons_of_mem tid htid') h
          · rw [List.mem_singleton] at h
            exact htid_nin_rest (h ▸ htid'))
    refine ⟨ts', rs', ⟨tid, t1.depends_on, results⟩ :: evs, ?_, ?_, ?_, ?_, ?_⟩
    · simp only [run_batch, hexec, hrb]
    · rw [hshape', hshape1]
    · rw [hcids', hcids1, List.toFinset_cons]
      ext s
      simp only [Finset.mem_union, Finset.mem_singleton, Finset.mem_insert]
      tauto
    · rw [hkeys', hkeys1, List.append_assoc, List.singleton_append]
    · intro ev hev
      rcases List.mem_cons.mp hev with rfl | hev
    
      · exact ⟨List.mem_cons_self tid rest, ⟨t1, ht, hid ▸ rfl, rfl⟩,
          fun d hd => ⟨hdeps d hd, hdepsr d hd⟩⟩
      · obtain ⟨hevtid, ⟨t2, ht2, hid2, hdeps2⟩, hrest⟩ := hevs ev hev
        refine ⟨List.mem_cons_of_mem tid hevtid, ?_, hrest⟩
        obtain ⟨t3, ht3, hid3, hdeps3⟩ := mem_of_shape hshape1 ht2
        exact ⟨t3, ht3, by rw [hid3, hid2], by rw [hdeps3, hdeps2]⟩

/-- The loop invariant of `execute` relative to the executor's declared
    graph `tasks`: the current task list has the same shape (ids,
    dependencies, operations) as the declared one, the completed-id set is
    exactly the set of flagged task ids, and the result store holds exactly
    one entry per completed id. -/
structure LoopInv {α : Type} (tasks ts : List (AgentTask α)) (rs : List (String × α))
    (cs : Finset String) : Prop where
  shape_eq : ts.map AgentTask.shape = tasks.map AgentTask.shape
  cs_eq : cs = completed_ids ts
  keys_nodup : (dictKeys rs).Nodup
  keys_eq : (dictKeys rs).toFinset = cs

theorem LoopInv.cs_subset {α : Type} {tasks ts : List (AgentTask α)} {rs : List (String × α)}
    {cs : Finset String} (inv : LoopInv tasks ts rs cs) :
    cs ⊆ (taskIds tasks).toFinset := by
  rw [inv.cs_eq, ← taskIds_eq_of_shape inv.shape_eq]
  exact completed_ids_subset_taskIds ts

theorem execute_loop_step_done {α : Type} (fuel : Nat) (ts : List (AgentTask α))
    (rs : List (String × α)) (cs : Finset String) (mc : Nat)
    (hcard : ¬cs.card < ts.length) :
    execute_loop (fuel + 1) ts rs cs mc = (.ok rs, []) := by
  rw [execute_loop, if_neg hcard]

theorem execute_loop_step_deadlock {α : Type} (fuel : Nat) (ts : List (AgentTask α))
    (rs : List (String × α)) (cs : Finset String) (mc : Nat)
    (hcard : cs.card < ts.length) (hready : get_ready_tasks ts cs = []) :
    execute_loop (fuel + 1) ts rs cs mc = (.error .deadlock, []) := by
  rw [execute_loop, if_pos hcard]
  simp only [hready, List.isEmpty_nil, if_true]

theorem execute_loop_step_batch {α : Type} (fuel : Nat) {ts ts' : List (AgentTask α)}
    {rs rs' : List (String × α)} {cs : Finset String} {mc : Nat} {evs : List (CallEvent α)}
    (hcard : cs.card < ts.length)
    (hne : get_ready_tasks ts cs ≠ [])
    (hrb : run_batch ts rs ((get_ready_tasks ts cs).take mc) = some (ts', rs', evs)) :
    execute_loop (fuel + 1) ts rs cs mc =
      ((execute_loop fuel ts' rs' (cs ∪ completed_ids ts') mc).1,
        ⟨cs, get_ready_tasks ts cs, (get_ready_tasks ts cs).take mc, evs⟩ ::
          (execute_loop fuel ts' rs' (cs ∪ completed_ids ts') mc).2) := by
  rw [execute_loop, if_pos hcard]
  have hie : (get_ready_tasks ts cs).isEmpty = false := by
    rw [List.isEmpty_eq_false]
    exact hne
  simp only [hie, Bool.false_eq_true, if_false, hrb]

theorem execute_round {α : Type} {tasks ts : List (AgentTask α)} {rs : List (String × α)}
    {cs : Finset String} (hnd : (taskIds tasks).Nodup)
    (inv : LoopInv tasks ts rs cs) (mc : Nat) :
    ∃ ts' rs' evs,
      run_batch ts rs ((get_ready_tasks ts cs).take mc) = some (ts', rs', evs)
      ∧ LoopInv tasks ts' rs' (cs ∪ completed_ids ts')
      ∧ completed_ids ts' = cs ∪ ((get_ready_tasks ts cs).take mc).toFinset
      ∧ ((get_ready_tasks ts cs).take mc ≠ [] → cs.card < (cs ∪ completed_ids ts').card)
      ∧ ∀ ev ∈ evs, ev.tid ∈ (get_ready_tasks ts cs).take mc
          ∧ (∃ t ∈ ts, t.agent_id = ev.tid ∧ t.depends_on = ev.deps)
          ∧ ∀ d ∈ ev.deps, d ∈ cs ∧ (dictLookup ev.resultsAt d).isSome := by
  have hndts : (taskIds ts).Nodup := by
    rw [taskIds_eq_of_shape inv.shape_eq]
    exact hnd
  have hready_nodup : (get_ready_tasks ts cs).Nodup := by
    have hsub : List.Sublist (get_ready_tasks ts cs) (taskIds ts) := by
      unfold get_ready_tasks taskIds
      exact (List.filter_sublist ts).map (fun t => t.agent_id)
    exact hsub.nodup hndts
  set launched := (get_ready_tasks ts cs).take mc with hlaunched
  have hlsub : ∀ tid ∈ launched, tid ∈ get_ready_tasks ts cs :=
    fun tid htid => List.take_subset mc _ htid
  have hnotcs : ∀ tid ∈ launched, tid ∉ cs := by
    intro tid htid hmem
    obtain ⟨t2, ht2, hid2, hflag2, _⟩ := mem_get_ready_tasks.mp (hlsub tid htid)
    rw [inv.cs_eq] at hmem
    obtain ⟨t1, ht1, hc1, hid1⟩ := mem_completed_ids.mp hmem
    have : t1 = t2 := unique_of_nodup_taskIds hndts ht1 ht2 (by rw [hid1, hid2])
    rw [this, hflag2] at hc1
    exact Bool.false_ne_true hc1
  obtain ⟨ts', rs', evs, hrb, hshape', hcids', hkeys', hevs⟩ :=
    run_batch_spec cs launched ts rs
      (fun tid htid => mem_get_ready_tasks.mp (hlsub tid htid))
      (fun s hs => by
        rw [Option.isSome_iff_exists] at *
        have : s ∈ dictKeys rs := by
          rw [← List.mem_toFinset, inv.keys_eq]
          exact hs
        obtain ⟨v, hv⟩ := (dictLookup_isSome_iff rs s).mpr this |> Option.isSome_iff_exists.mp
        exact ⟨v, hv⟩)
      ((List.take_sublist mc _).nodup hready_nodup)
      hndts
      (fun tid htid hmem => hnotcs tid htid (by
        rw [← inv.keys_eq]
        exact List.mem_toFinset.mpr hmem))
  have hcids2 : completed_ids ts' = cs ∪ launched.toFinset := by
    rw [hcids', ← inv.cs_eq]
  have hcs_sub : cs ⊆ completed_ids ts' := by
    rw [hcids2]
    exact Finset.subset_union_left
  refine ⟨ts', rs', evs, hrb, ?_, hcids2, ?_, hevs⟩
  · refine ⟨hshape'.trans inv.shape_eq, ?_, ?_, ?_⟩
    · rw [Finset.union_eq_right.mpr hcs_sub]
    · rw [hkeys']
      refine List.Nodup.append inv.keys_nodup ((List.take_sublist mc _).nodup hready_nodup) ?_
      intro a ha hla
      exact hnotcs a hla (by rw [← inv.keys_eq]; exact List.mem_toFinset.mpr ha)
    · rw [hkeys', List.toFinset_append, inv.keys_eq, Finset.union_eq_right.mpr hcs_sub, hcids2]
  · intro hne
    have hb : ∃ b, b ∈ launched := by
      cases hl : launched with
      | nil => exact absurd hl hne
      | cons a l => exact ⟨a, hl ▸ List.mem_cons_self a l⟩
    obtain ⟨b, hb⟩ := hb
    have hbcs : b ∉ cs := hnotcs b hb
    have hbin : b ∈ cs ∪ completed_ids ts' := by
      rw [Finset.mem_union, hcids2]
      right
      rw [Finset.mem_union]
      right
      exact List.mem_toFinset.mpr hb
    exact Finset.card_lt_card
      ((Finset.ssubset_iff_of_subset Finset.subset_union_left).mpr ⟨b, hbin, hbcs⟩)

theorem take_ne_nil_of_ne_nil {l : List String} {mc : Nat} (h : l ≠ []) (hmc : 1 ≤ mc) :
    l.take mc ≠ [] := by
  cases l with
  | nil => exact absurd rfl h
  | cons a t =>
    cases mc with
    | zero => omega
    | succ m => simp

theorem ready_nonempty_of_acyclic {α : Type} {tasks ts : List (AgentTask α)}
    {rs : List (String × α)} {cs : Finset String}
    (hnd : (taskIds tasks).Nodup)
    (hdeps : ∀ t ∈ tasks, ∀ d ∈ t.depends_on, d ∈ taskIds tasks)
    (hacyc : WellFounded (DepRel tasks))
    (inv : LoopInv tasks ts rs cs)
    (hcard : cs.card < ts.length) :
    get_ready_tasks ts cs ≠ [] := by
  have hSne : ((taskIds tasks).toFinset \ cs).Nonempty := by
    by_contra hse
    rw [Finset.not_nonempty_iff_eq_empty, Finset.sdiff_eq_empty_iff_subset] at hse
    have h1 : (taskIds tasks).toFinset.card ≤ cs.card := Finset.card_le_card hse
    have h2 : (taskIds tasks).toFinset.card = tasks.length := by
      rw [List.toFinset_card_of_nodup hnd]
      exact List.length_map _ _
    have h3 : ts.length = tasks.length := length_eq_of_shape inv.shape_eq
    omega
  obtain ⟨x0, hx0⟩ := hSne
  obtain ⟨m, hmS, hmin⟩ := hacyc.has_min (fun y => y ∈ (taskIds tasks).toFinset \ cs) ⟨x0, hx0⟩
  have hm1 : m ∈ (taskIds tasks).toFinset := (Finset.mem_sdiff.mp hmS).1
  have hm2 : m ∉ cs := (Finset.mem_sdiff.mp hmS).2
  obtain ⟨t0, ht0, hid0⟩ := List.mem_map.mp (List.mem_toFinset.mp hm1)
  obtain ⟨t1, ht1, hid1, hdep1⟩ := mem_of_shape inv.shape_eq.symm ht0
  have hflag1 : t1.completed = false := by
    by_contra hf
    rw [Bool.not_eq_false] at hf
    have hmem : m ∈ completed_ids ts := mem_completed_ids.mpr ⟨t1, ht1, hf, by rw [hid1, hid0]⟩
    rw [← inv.cs_eq] at hmem
    exact hm2 hmem
  have hdall : ∀ d ∈ t1.depends_on, d ∈ cs := by
    intro d hd
    rw [hdep1] at hd
    have hdecl : d ∈ taskIds tasks := hdeps t0 ht0 d hd
    by_contra hdc
    have hdS : d ∈ (taskIds tasks).toFinset \ cs :=
      Finset.mem_sdiff.mpr ⟨List.mem_toFinset.mpr hdecl, hdc⟩
    exact hmin d hdS ⟨t0, ht0, hid0, hd⟩
  intro hre
  have hmem : m ∈ get_ready_tasks ts cs :=
    mem_get_ready_tasks.mpr ⟨t1, ht1, by rw [hid1, hid0], hflag1, hdall⟩
  rw [hre] at hmem
  exact List.not_mem_nil m hmem

theorem execute_loop_acyclic_ok {α : Type} {tasks : List (AgentTask α)}
    (hnd : (taskIds tasks).Nodup)
    (hdeps : ∀ t ∈ tasks, ∀ d ∈ t.depends_on, d ∈ taskIds tasks)
    (hacyc : WellFounded (DepRel tasks)) {mc : Nat} (hmc : 1 ≤ mc) :
    ∀ (fuel : Nat) (ts : List (AgentTask α)) (rs : List (String × α)) (cs : Finset String),
    LoopInv tasks ts rs cs →
    tasks.length + 1 ≤ fuel + cs.card →
    ∃ res, (execute_loop fuel ts rs cs mc).1 = .ok res
      ∧ (dictKeys res).Nodup
      ∧ (dictKeys res).toFinset = (taskIds tasks).toFinset := by
  intro fuel
  induction fuel with
  | zero =>
    intro ts rs cs inv hfuel
    exfalso
    have h1 : cs.card ≤ (taskIds tasks).toFinset.card := Finset.card_le_card inv.cs_subset
    have h2 : (taskIds tasks).toFinset.card ≤ (taskIds tasks).length :=
      List.toFinset_card_le _
    have h3 : (taskIds tasks).length = tasks.length := List.length_map _ _
    omega
  | succ fuel ih =>
    intro ts rs cs inv hfuel
    have hlen : ts.length = tasks.length := length_eq_of_shape inv.shape_eq
    by_cases hcard : cs.card < ts.length
    · have hready := ready_nonempty_of_acyclic hnd hdeps hacyc inv hcard
      obtain ⟨ts', rs', evs, hrb, inv', hcids', hprog, _⟩ := execute_round hnd inv mc
      have hlne : (get_ready_tasks ts cs).take mc ≠ [] := take_ne_nil_of_ne_nil hready hmc
      have hcard' := hprog hlne
      obtain ⟨res, hres, hnd', hkeys'⟩ := ih ts' rs' (cs ∪ completed_ids ts') inv' (by omega)
      rw [execute_loop_step_batch fuel hcard hready hrb]
      exact ⟨res, hres, hnd', hkeys'⟩
    · rw [execute_loop_step_done fuel ts rs cs mc hcard]
      refine ⟨rs, rfl, inv.keys_nodup, ?_⟩
      rw [inv.keys_eq]
      apply Finset.eq_of_subset_of_card_le inv.cs_subset
      have h2 : (taskIds tasks).toFinset.card ≤ (taskIds tasks).length :=
        List.toFinset_card_le _
      have h3 : (taskIds tasks).length = tasks.length := List.length_map _ _
      omega

/-- C1: on a fresh executor whose declared graph has no duplicate ids, whose
    dependency ids are all declared, and whose dependency relation is
    well-founded (acyclic), `execute` with any concurrency bound of at least
    one terminates with a result store holding exactly one entry per
    declared task id. -/
theorem C1_acyclic_execute_complete {α : Type} (tasks : List (AgentTask α))
    (max_concurrent : Nat)
    (hnd : (taskIds tasks).Nodup)
    (hfresh : ∀ t ∈ tasks, t.completed = false)
    (hdeps : ∀ t ∈ tasks, ∀ d ∈ t.depends_on, d ∈ taskIds tasks)
    (hacyc : WellFounded (DepRel tasks))
    (hmc : 1 ≤ max_concurrent) :
    ∃ res, execute tasks [] max_concurrent = .ok res
      ∧ (dictKeys res).Nodup
      ∧ (dictKeys res).toFinset = (taskIds tasks).toFinset := by
  have inv : LoopInv tasks tasks [] ∅ :=
    ⟨rfl, (completed_ids_empty hfresh).symm, List.nodup_nil, rfl⟩
  unfold execute
  exact execute_loop_acyclic_ok hnd hdeps hacyc hmc (tasks.length + 1) tasks [] ∅ inv (by simp)

/-- A two-task chain (b depends on a) used as concrete witness input. -/
def chainTasks : List (AgentTask Nat) :=
  [⟨"a", [], (fun _ _ => 1), [], [], false⟩,
   ⟨"b", ["a"], (fun _ _ => 2), [], [], false⟩]

theorem chainTasks_wf : WellFounded (DepRel chainTasks) := by
  have hacc_a : Acc (DepRel chainTasks) "a" := by
    constructor
    intro y hy
    obtain ⟨t, ht, hid, hdep⟩ := hy
    rcases List.mem_cons.mp ht with rfl | ht
    · simp at hdep
    · rcases List.mem_cons.mp ht with rfl | ht
      · exact absurd hid (by decide)
      · exact absurd ht (List.not_mem_nil t)
  constructor
  intro x
  constructor
  intro y hy
  obtain ⟨t, ht, hid, hdep⟩ := hy
  rcases List.mem_cons.mp ht with rfl | ht
  · simp at hdep
  · rcases List.mem_cons.mp ht with rfl | ht
    · have hya : y = "a" := by simpa [chainTasks] using hdep
      rw [hya]
      exact hacc_a
    · exact absurd ht (List.not_mem_nil t)

/-- Witness for C1 on the two-task chain with concurrency bound 2. -/
theorem C1_witness :
    ∃ res, execute chainTasks [] 2 = .ok res
      ∧ (dictKeys res).Nodup
      ∧ (dictKeys res).toFinset = (taskIds chainTasks).toFinset :=
  C1_acyclic_execute_complete chainTasks 2 (by decide) (by decide) (by decide)
    chainTasks_wf (by decide)

theorem cs_card_lt_of_disjoint_blocked {α : Type} {tasks : List (AgentTask α)}
    (hnd : (taskIds tasks).Nodup) {S cs : Finset String}
    (hSsub : S ⊆ (taskIds tasks).toFinset) (hSne : S.Nonempty)
    (hcssub : cs ⊆ (taskIds tasks).toFinset) (hdisj : Disjoint cs S) :
    cs.card < tasks.length := by
  have h1 : cs ⊆ (taskIds tasks).toFinset \ S := by
    intro x hx
    rw [Finset.mem_sdiff]
    exact ⟨hcssub hx, fun hxS => (Finset.disjoint_left.mp hdisj) hx hxS⟩
  have h2 : cs.card ≤ ((taskIds tasks).toFinset \ S).card := Finset.card_le_card h1
  have h3 : ((taskIds tasks).toFinset \ S).card = (taskIds tasks).toFinset.card - S.card :=
    Finset.card_sdiff hSsub
  have h4 : 1 ≤ S.card := Finset.card_pos.mpr hSne
  have h5 : S.card ≤ (taskIds tasks).toFinset.card := Finset.card_le_card hSsub
  have h6 : (taskIds tasks).toFinset.card = tasks.length := by
    rw [List.toFinset_card_of_nodup hnd]
    exact List.length_map _ _
  omega

theorem execute_loop_blocked_deadlock {α : Type} {tasks : List (AgentTask α)}
    (hnd : (taskIds tasks).Nodup)
    {S : Finset String}
    (hSsub : S ⊆ (taskIds tasks).toFinset) (hSne : S.Nonempty)
    (hblock : ∀ t ∈ tasks, t.agent_id ∈ S →
      ∃ d ∈ t.depends_on, d ∈ S ∨ d ∉ taskIds tasks)
    {mc : Nat} (hmc : 1 ≤ mc) :
    ∀ (fuel : Nat) (ts : List (AgentTask α)) (rs : List (String × α)) (cs : Finset String),
    LoopInv tasks ts rs cs →
    Disjoint cs S →
    tasks.length ≤ fuel + cs.card →
    (execute_loop fuel ts rs cs mc).1 = .error .deadlock := by
  intro fuel
  induction fuel with
  | zero =>
    intro ts rs cs inv hdisj hfuel
    exfalso
    have := cs_card_lt_of_disjoint_blocked hnd hSsub hSne inv.cs_subset hdisj
    omega
  | succ fuel ih =>
    intro ts rs cs inv hdisj hfuel
    have hlen : ts.length = tasks.length := length_eq_of_shape inv.shape_eq
    have hcard : cs.card < ts.length := by
      rw [hlen]
      exact cs_card_lt_of_disjoint_blocked hnd hSsub hSne inv.cs_subset hdisj
    by_cases hready : get_ready_tasks ts cs = []
    · rw [execute_loop_step_deadlock fuel ts rs cs mc hcard hready]
    · have hreadyS : ∀ tid ∈ get_ready_tasks ts cs, tid ∉ S := by
        intro tid htid htidS
        obtain ⟨t1, ht1, hid1, hflag1, hdeps1⟩ := mem_get_ready_tasks.mp htid
        obtain ⟨t0, ht0, hid0, hdep0⟩ := mem_of_shape inv.shape_eq ht1
        obtain ⟨d, hd, hdS⟩ := hblock t0 ht0 (by rw [hid0, hid1]; exact htidS)
        rw [hdep0] at hd
        have hdcs : d ∈ cs := hdeps1 d hd
        rcases hdS with hdS | hdecl
        · exact (Finset.disjoint_left.mp hdisj) hdcs hdS
        · exact hdecl (List.mem_toFinset.mp (inv.cs_subset hdcs))
      obtain ⟨ts', rs', evs, hrb, inv', hcids', hprog, _⟩ := execute_round hnd inv mc
      have hlne : (get_ready_tasks ts cs).take mc ≠ [] := take_ne_nil_of_ne_nil hready hmc
      have hdisj' : Disjoint (cs ∪ completed_ids ts') S := by
        rw [Finset.disjoint_left]
        intro x hx hxS
        rw [Finset.mem_union] at hx
        rcases hx with hx | hx
        · exact (Finset.disjoint_left.mp hdisj) hx hxS
        · rw [hcids', Finset.mem_union] at hx
          rcases hx with hx | hx
          · exact (Finset.disjoint_left.mp hdisj) hx hxS
          · exact hreadyS x (List.take_subset mc _ (List.mem_toFinset.mp hx)) hxS
      have hcard' := hprog hlne
      rw [execute_loop_step_batch fuel hcard hready hrb]
      exact ih ts' rs' (cs ∪ completed_ids ts') inv' hdisj' (by omega)

/-- C2: on a fresh executor whose declared graph has no duplicate ids, if the
    graph contains a dependency cycle, or some task depends on an id never
    declared, then `execute` (with any concurrency bound of at least one)
    raises the deadlock error — the fatal structural Dependency failure —
    and returns no result mapping, partial or otherwise. -/
theorem C2_cycle_execute_deadlock {α : Type} (tasks : List (AgentTask α))
    (max_concurrent : Nat)
    (hnd : (taskIds tasks).Nodup)
    (hfresh : ∀ t ∈ tasks, t.completed = false)
    (hmc : 1 ≤ max_concurrent)
    (hbad : (∃ c, IsDepCycle tasks c) ∨ ∃ t ∈ tasks, ∃ d ∈ t.depends_on, d ∉ taskIds tasks) :
    execute tasks [] max_concurrent = .error .deadlock := by
  obtain ⟨S, hSsub, hSne, hblock⟩ :
      ∃ S : Finset String, S ⊆ (taskIds tasks).toFinset ∧ S.Nonempty ∧
        ∀ t ∈ tasks, t.agent_id ∈ S → ∃ d ∈ t.depends_on, d ∈ S ∨ d ∉ taskIds tasks := by
    rcases hbad with ⟨c, hcne, hcyc⟩ | ⟨t0, ht0, d0, hd0, hdecl⟩
    · refine ⟨c.toFinset, ?_, ?_, ?_⟩
      · intro x hx
        rw [List.mem_toFinset] at hx
        obtain ⟨i, hi⟩ := List.mem_iff_get.mp hx
        obtain ⟨t, ht, hid, _⟩ := hcyc i
        rw [List.mem_toFinset, ← hi, ← hid]
        exact List.mem_map_of_mem _ ht
      · cases hc : c with
        | nil => exact absurd hc hcne
        | cons a l => exact ⟨a, List.mem_toFinset.mpr (List.mem_cons_self a l)⟩
      · intro t ht htS
        rw [List.mem_toFinset] at htS
        obtain ⟨i, hi⟩ := List.mem_iff_get.mp htS
        obtain ⟨t', ht', hid', hdep'⟩ := hcyc i
        have ht't : t' = t := unique_of_nodup_taskIds hnd ht' ht (by rw [hid', hi])
        subst ht't
        exact ⟨c.get ⟨(i.val + 1) % c.length, Nat.mod_lt _ i.pos⟩, hdep',
          Or.inl (List.mem_toFinset.mpr (List.get_mem c _ _))⟩
    · refine ⟨{t0.agent_id}, ?_, Finset.singleton_nonempty _, ?_⟩
      · intro x hx
        rw [Finset.mem_singleton] at hx
        rw [hx, List.mem_toFinset]
        exact List.mem_map_of_mem _ ht0
      · intro t ht htS
        rw [Finset.mem_singleton] at htS
        have htt0 : t = t0 := unique_of_nodup_taskIds hnd ht ht0 htS
        subst htt0
        exact ⟨d0, hd0, Or.inr hdecl⟩
  have inv : LoopInv tasks tasks [] ∅ :=
    ⟨rfl, (completed_ids_empty hfresh).symm, List.nodup_nil, rfl⟩
  unfold execute
  exact execute_loop_blocked_deadlock hnd hSsub hSne hblock hmc (tasks.length + 1)
    tasks [] ∅ inv (Finset.disjoint_left.mpr (by simp)) (by simp)

/-- A two-task cycle (x and y depend on each other) used as witness input. -/
def cycleTasks : List (AgentTask Nat) :=
  [⟨"x", ["y"], (fun _ _ => 0), [], [], false⟩,
   ⟨"y", ["x"], (fun _ _ => 0), [], [], false⟩]

/-- Witness for C2 on the two-task cycle with concurrency bound 1. -/
theorem C2_witness :
    execute cycleTasks [] 1 = .error .deadlock :=
  C2_cycle_execute_deadlock cycleTasks 1 (by decide) (by decide) (by decide)
    (Or.inl ⟨["x", "y"], by decide, by decide⟩)

theorem execute_loop_step_keyerr {α : Type} (fuel : Nat) {ts : List (AgentTask α)}
    {rs : List (String × α)} {cs : Finset String} {mc : Nat}
    (hcard : cs.card < ts.length)
    (hne : get_ready_tasks ts cs ≠ [])
    (hrb : run_batch ts rs ((get_ready_tasks ts cs).take mc) = none) :
    execute_loop (fuel + 1) ts rs cs mc = (.error .keyError, []) := by
  rw [execute_loop, if_pos hcard]
  have hie : (get_ready_tasks ts cs).isEmpty = false := by
    rw [List.isEmpty_eq_false]
    exact hne
  simp only [hie, Bool.false_eq_true, if_false, hrb]

theorem execute_loop_launched_take {α : Type} (mc : Nat) :
    ∀ (fuel : Nat) (ts : List (AgentTask α)) (rs : List (String × α)) (cs : Finset String),
    ∀ round ∈ (execute_loop fuel ts rs cs mc).2,
      round.launched = round.ready.take mc := by
  intro fuel
  induction fuel with
  | zero =>
    intro ts rs cs round hround
    simp [execute_loop] at hround
  | succ fuel ih =>
    intro ts rs cs round hround
    by_cases hcard : cs.card < ts.length
    · by_cases hready : get_ready_tasks ts cs = []
      · rw [execute_loop_step_deadlock fuel ts rs cs mc hcard hready] at hround
        simp at hround
      · cases hrb : run_batch ts rs ((get_ready_tasks ts cs).take mc) with
        | none =>
          rw [execute_loop_step_keyerr fuel hcard hready hrb] at hround
          simp at hround
        | some out =>
          obtain ⟨ts', rs', evs⟩ := out
          rw [execute_loop_step_batch fuel hcard hready hrb] at hround
          rcases List.mem_cons.mp hround with rfl | hround
          · rfl
          · exact ih ts' rs' (cs ∪ completed_ids ts') round hround
    · rw [execute_loop_step_done fuel ts rs cs mc hcard] at hround
      simp at hround

theorem execute_loop_trace_sound {α : Type} {tasks : List (AgentTask α)}
    (hnd : (taskIds tasks).Nodup) (mc : Nat) :
    ∀ (fuel : Nat) (ts : List (AgentTask α)) (rs : List (String × α)) (cs : Finset String),
    LoopInv tasks ts rs cs →
    ∀ round ∈ (execute_loop fuel ts rs cs mc).2,
      ∀ ev ∈ round.calls,
        ev.tid ∈ round.launched
        ∧ (∃ t ∈ tasks, t.agent_id = ev.tid ∧ t.depends_on = ev.deps)
        ∧ ∀ d ∈ ev.deps, d ∈ round.completedBefore ∧ (dictLookup ev.resultsAt d).isSome := by
  intro fuel
  induction fuel with
  | zero =>
    intro ts rs cs inv round hround
    simp [execute_loop] at hround
  | succ fuel ih =>
    intro ts rs cs inv round hround
    by_cases hcard : cs.card < ts.length
    · by_cases hready : get_ready_tasks ts cs = []
      · rw [execute_loop_step_deadlock fuel ts rs cs mc hcard hready] at hround
        simp at hround
      · obtain ⟨ts', rs', evs, hrb, inv', _, _, hevs⟩ := execute_round hnd inv mc
        rw [execute_loop_step_batch fuel hcard hready hrb] at hround
        rcases List.mem_cons.mp hround with rfl | hround
        · intro ev hev
          obtain ⟨hevtid, ⟨t2, ht2, hid2, hdeps2⟩, hrest⟩ := hevs ev hev
          refine ⟨hevtid, ?_, hrest⟩
          obtain ⟨t3, ht3, hid3, hdeps3⟩ := mem_of_shape inv.shape_eq ht2
          exact ⟨t3, ht3, by rw [hid3, hid2], by rw [hdeps3, hdeps2]⟩
        · exact ih ts' rs' (cs ∪ completed_ids ts') inv' round hround
    · rw [execute_loop_step_done fuel ts rs cs mc hcard] at hround
      simp at hround

/-- C3: on a fresh executor with no duplicate ids, in every run of `execute`
    every recorded operation invocation concerns a declared task all of
    whose dependency ids are already in the round's completed-id set and
    have a stored result in the result store as it is at the moment of the
    invocation: a task is launched only after all its dependencies'
    results are stored. -/
theorem C3_dependency_before_dependent {α : Type} (tasks : List (AgentTask α))
    (max_concurrent : Nat)
    (hnd : (taskIds tasks).Nodup)
    (hfresh : ∀ t ∈ tasks, t.completed = false) :
    ∀ round ∈ execute_trace tasks [] max_concurrent, ∀ ev ∈ round.calls,
      (∃ t ∈ tasks, t.agent_id = ev.tid ∧ t.depends_on = ev.deps)
      ∧ ∀ d ∈ ev.deps, d ∈ round.completedBefore ∧ (dictLookup ev.resultsAt d).isSome := by
  intro round hround ev hev
  have inv : LoopInv tasks tasks [] ∅ :=
    ⟨rfl, (completed_ids_empty hfresh).symm, List.nodup_nil, rfl⟩
  obtain ⟨_, hdecl, hdeps⟩ := execute_loop_trace_sound hnd max_concurrent (tasks.length + 1)
    tasks [] ∅ inv round hround ev hev
  exact ⟨hdecl, hdeps⟩

/-- Witness for C3 on the two-task chain: the second round launches task b
    with its dependency a completed and a's result stored. -/
theorem C3_witness :
    ((⟨{"a"}, ["b"], ["b"], [⟨"b", ["a"], [("a", 1)]⟩]⟩ : RoundEvent Nat)
        ∈ execute_trace chainTasks [] 2)
    ∧ ((∃ t ∈ chainTasks, t.agent_id = "b" ∧ t.depends_on = ["a"])
       ∧ ∀ d ∈ ["a"], d ∈ ({"a"} : Finset String)
           ∧ (dictLookup [("a", (1 : Nat))] d).isSome) :=
  ⟨by decide,
   C3_dependency_before_dependent chainTasks 2 (by decide) (by decide)
     ⟨{"a"}, ["b"], ["b"], [⟨"b", ["a"], [("a", 1)]⟩]⟩ (by decide)
     ⟨"b", ["a"], [("a", 1)]⟩ (by decide)⟩

/-- C8: in every scheduling round of any `execute` call, the launched batch
    is drawn from the computed ready set and never exceeds the concurrency
    bound: at most `max_concurrent` operations run simultaneously. -/
theorem C8_concurrency_bound {α : Type} (tasks : List (AgentTask α))
    (results : List (String × α)) (max_concurrent : Nat) :
    ∀ round ∈ execute_trace tasks results max_concurrent,
      round.launched.length ≤ max_concurrent
      ∧ ∀ tid ∈ round.launched, tid ∈ round.ready := by
  intro round hround
  have h := execute_loop_launched_take max_concurrent (tasks.length + 1) tasks results ∅
    round hround
  rw [h]
  exact ⟨List.length_take_le _ _, fun tid htid => List.take_subset _ _ htid⟩

/-- Witness for C8 on the two-task chain with concurrency bound 1. -/
theorem C8_witness :
    ((⟨∅, ["a"], ["a"], [⟨"a", [], []⟩]⟩ : RoundEvent Nat) ∈ execute_trace chainTasks [] 1)
    ∧ (["a"].length ≤ 1 ∧ ∀ tid ∈ ["a"], tid ∈ ["a"]) :=
  ⟨by decide,
   C8_concurrency_bound chainTasks [] 1 ⟨∅, ["a"], ["a"], [⟨"a", [], []⟩]⟩ (by decide)⟩
